import Mathlib

/-!
Verification of `sheath_steady.cpp` (1D-1V PIC plasma sheath code).

The program is embedded shallowly over exact rational arithmetic:
every `double` becomes a `ℚ`, every C array of `ni` doubles becomes a
total function (`ℤ → ℚ` for the mesh arrays touched through particle
logical coordinates, `ℕ → ℚ` inside the potential solvers, whose loops
only ever touch indices `0 .. ni-1`); reads outside `0 .. ni-1` — which
in C would be out of bounds — read the mathematical extension of the
array.  The single `mt19937` random stream is modelled as an abstract
sequence `ℕ → ℚ` of draws consumed in program order, and the
floating-point `sqrt` (used only by `SampleVel`) as an abstract fixed
function `ℚ → ℚ`; none of the properties proved below depend on the
values either produces.
-/

namespace SheathPIC

/-! ### Physical and simulation constants (exact rational values of the
C `double` literals) -/

def EPS : ℚ := 885418782 / 10 ^ 20
def K : ℚ := 138065 / 10 ^ 28
def ME : ℚ := 910938215 / 10 ^ 39
def QE : ℚ := 1602176565 / 10 ^ 28
def AMU : ℚ := 1660538921 / 10 ^ 36
def EV_TO_K : ℚ := 1160452 / 100

def PLASMA_DEN : ℚ := 10 ^ 16
def DX : ℚ := 1 / 10 ^ 4
def DT : ℚ := 5 / 10 ^ 11
def ELECTRON_TEMP : ℚ := 2
def ION_TEMP : ℚ := 1 / 10

def NUM_IONS : ℕ := 30000
def NUM_ELECTRONS : ℕ := 80000
def NC : ℕ := 400
def NUM_TS : ℕ := 10000

/-! ### Data model -/

/-- `class Domain`: mesh geometry.  The field arrays of the C `Domain`
are passed around explicitly below instead of living in a global. -/
structure Domain where
  ni : ℕ
  x0 : ℚ
  dx : ℚ
  xl : ℚ
  xmax : ℚ
  deriving Repr

/-- The domain constructed at the top of `main`:
`ni = NC+1`, `dx = DX`, `x0 = 0`, `xl = (ni-1)*dx`, `xmax = x0 + xl`. -/
def mainDomain : Domain :=
  { ni := NC + 1
    x0 := 0
    dx := DX
    xl := ((NC + 1 : ℚ) - 1) * DX
    xmax := 0 + ((NC + 1 : ℚ) - 1) * DX }

/-- `class Particle`: position, velocity and identity. -/
structure Particle where
  pos : ℚ
  vel : ℚ
  id : ℕ := 0
  deriving Repr, DecidableEq

/-- `class Species`: the particle population (a `std::list`, modelled as a
`List`), its physical data, and the private `part_id` counter used by
`Species::add`. -/
structure Species where
  part_list : List Particle
  mass : ℚ
  charge : ℚ
  spwt : ℚ
  name : String
  NUM : ℕ
  Temp : ℚ
  part_id : ℕ := 0
  deriving Repr

/-- `Species::add`: stamp the particle with the running `part_id` and
append it at the back of the list. -/
def Species.add (sp : Species) (part : Particle) : Species :=
  { sp with
    part_list := sp.part_list ++ [{ part with id := sp.part_id }]
    part_id := sp.part_id + 1 }

/-- The species constructed in `main` (empty particle list; `Init` fills it). -/
def mkSpecies (name : String) (mass charge spwt : ℚ) (NUM : ℕ) (Temp : ℚ) : Species :=
  { part_list := [], mass := mass, charge := charge, spwt := spwt
    name := name, NUM := NUM, Temp := Temp }

def ion_spwt : ℚ := PLASMA_DEN * mainDomain.xl / (NUM_IONS : ℚ)
def electron_spwt : ℚ := PLASMA_DEN * mainDomain.xl / (NUM_ELECTRONS : ℚ)

def ionsSpecies : Species := mkSpecies "Ar+ Ions" (40 * AMU) QE ion_spwt NUM_IONS ION_TEMP
def electronsSpecies : Species := mkSpecies "Electrons" ME (-QE) electron_spwt NUM_ELECTRONS ELECTRON_TEMP

/-! ### Mesh interpolation primitives -/

/-- C's `(int)` cast on a `double`: truncation toward zero
(ceiling for negative arguments, floor for nonnegative ones). -/
def truncQ (q : ℚ) : ℤ :=
  if q < 0 then ⌈q⌉ else ⌊q⌋

theorem truncQ_of_nonneg {q : ℚ} (h : 0 ≤ q) : truncQ q = ⌊q⌋ := by
  unfold truncQ
  rw [if_neg (not_lt.mpr h)]

/-- `XtoL`: physical position to logical (cell) coordinate. -/
def XtoL (dom : Domain) (pos : ℚ) : ℚ :=
  (pos - dom.x0) / dom.dx

/-- `scatter`: first-order (linear) deposition of `value` onto mesh nodes
`i = (int)lc` and `i+1`. -/
def scatter (lc value : ℚ) (field : ℤ → ℚ) : ℤ → ℚ :=
  let i : ℤ := truncQ lc
  let di : ℚ := lc - (i : ℚ)
  let f1 := Function.update field i (field i + value * (1 - di))
  Function.update f1 (i + 1) (f1 (i + 1) + value * di)

/-- `gather`: linear interpolation of `field` at logical coordinate `lc`. -/
def gather (lc : ℚ) (field : ℤ → ℚ) : ℚ :=
  let i : ℤ := truncQ lc
  let di : ℚ := lc - (i : ℚ)
  field i * (1 - di) + field (i + 1) * di

/-- Pointwise description of a single `scatter` call. -/
theorem scatter_apply (lc value : ℚ) (field : ℤ → ℚ) (n : ℤ) :
    scatter lc value field n =
      field n
        + (if n = truncQ lc then value * (1 - (lc - (truncQ lc : ℚ))) else 0)
        + (if n = truncQ lc + 1 then value * (lc - (truncQ lc : ℚ)) else 0) := by
  unfold scatter
  simp only [Function.update_apply]
  have hne : truncQ lc + 1 ≠ truncQ lc := by omega
  by_cases h1 : n = truncQ lc + 1
  · subst h1
    rw [if_pos rfl, if_pos rfl, if_neg hne, if_neg hne]
    ring
  · rw [if_neg h1, if_neg h1]
    by_cases h0 : n = truncQ lc
    · subst h0
      rw [if_pos rfl, if_pos rfl]; ring
    · rw [if_neg h0, if_neg h0]; ring

/-! ### Initialization -/

/-- `SampleVel` (Birdsall): `v_th*sqrt(2)*(rnd()+rnd()+rnd()-1.5)` with
`v_th = sqrt(2*K*T/mass)`.  The three `rnd()` draws are the arguments
`r1 r2 r3`; the floating-point square root is the abstract `sqrtQ`. -/
def SampleVel (sqrtQ : ℚ → ℚ) (T mass r1 r2 r3 : ℚ) : ℚ :=
  let v_th := sqrtQ (2 * K * T / mass)
  v_th * sqrtQ 2 * (r1 + r2 + r3 - 3 / 2)

/-- One iteration of the `Init` loop at index `p`: position uses the draw
`rs (4p)`, `SampleVel` consumes `rs (4p+1)`, `rs (4p+2)`, `rs (4p+3)`. -/
def initStep (sqrtQ : ℚ → ℚ) (rs : ℕ → ℚ) (dom : Domain) (sp : Species) (p : ℕ) : Species :=
  let x := dom.x0 + rs (4 * p) * ((dom.ni : ℚ) - 1) * dom.dx
  let v := SampleVel sqrtQ (sp.Temp * EV_TO_K) sp.mass (rs (4 * p + 1)) (rs (4 * p + 2)) (rs (4 * p + 3))
  sp.add { pos := x, vel := v }

/-- `Init`: the loop `for(int p=0; p<NUM_IONS; p++)` sampling a position
and a velocity and `add`ing the particle.  Note the loop bound is the
global constant `NUM_IONS`, not `species->NUM`. -/
def Init (sqrtQ : ℚ → ℚ) (rs : ℕ → ℚ) (dom : Domain) (sp : Species) : Species :=
  (List.range NUM_IONS).foldl (initStep sqrtQ rs dom) sp

/-! ### Density deposition -/

/-- Contribution of one particle to mesh node `n` in `ScatterSpecies`
(before the division by `dx` and the boundary doubling). -/
def deposit (dom : Domain) (w : ℚ) (n : ℤ) (p : Particle) : ℚ :=
  (if n = truncQ (XtoL dom p.pos) then
    w * (1 - (XtoL dom p.pos - (truncQ (XtoL dom p.pos) : ℚ))) else 0) +
  (if n = truncQ (XtoL dom p.pos) + 1 then
    w * (XtoL dom p.pos - (truncQ (XtoL dom p.pos) : ℚ)) else 0)

/-- `ScatterSpecies`: `memset` the field to zero, `scatter` every particle
with weight `spwt`, divide each node by `dx`, then double `field[0]` and
`field[ni-1]`.  The incoming `field` is overwritten wholesale (the C
array holds nodes `0..ni-1`; the model is total over `ℤ`, out-of-range
nodes are the zero extension left by the `memset`). -/
def ScatterSpecies (dom : Domain) (sp : Species) (field : ℤ → ℚ) : ℤ → ℚ :=
  let zeroed : ℤ → ℚ := fun _ => 0
  let acc := sp.part_list.foldl (fun g p => scatter (XtoL dom p.pos) sp.spwt g) zeroed
  let divided : ℤ → ℚ := fun n => acc n / dom.dx
  let d1 := Function.update divided 0 (divided 0 * 2)
  Function.update d1 ((dom.ni : ℤ) - 1) (d1 ((dom.ni : ℤ) - 1) * 2)

/-- `ScatterSpeciesVel`: identical to `ScatterSpecies` but each particle
deposits `spwt * vel`. -/
def ScatterSpeciesVel (dom : Domain) (sp : Species) (field : ℤ → ℚ) : ℤ → ℚ :=
  let zeroed : ℤ → ℚ := fun _ => 0
  let acc := sp.part_list.foldl (fun g p => scatter (XtoL dom p.pos) (sp.spwt * p.vel) g) zeroed
  let divided : ℤ → ℚ := fun n => acc n / dom.dx
  let d1 := Function.update divided 0 (divided 0 * 2)
  Function.update d1 ((dom.ni : ℤ) - 1) (d1 ((dom.ni : ℤ) - 1) * 2)

/-- `ComputeRho`: `rho[i] = ions.charge*ndi[i] + electrons.charge*nde[i]`
on nodes `0..ni-1` (the array is `memset` to zero first; the noise
clipping block is behind `if(false)` and never runs). -/
def ComputeRho (dom : Domain) (ions electrons : Species) (ndi nde : ℤ → ℚ) : ℤ → ℚ :=
  fun i =>
    if 0 ≤ i ∧ i ≤ (dom.ni : ℤ) - 1 then
      ions.charge * ndi i + electrons.charge * nde i
    else 0

/-! ### Particle mover -/

/-- Body of the `PushSpecies` loop for one particle: gather the field at
the pre-update position, advance the velocity, then advance the position
with the already-updated velocity. -/
def pushParticle (dom : Domain) (qm dt : ℚ) (ef : ℤ → ℚ) (p : Particle) : Particle :=
  let lc := XtoL dom p.pos
  let part_ef := gather lc ef
  let vel := p.vel + dt * qm * part_ef
  { p with vel := vel, pos := p.pos + dt * vel }

/-- The `while` loop of `PushSpecies` over the particle list: each
particle is pushed once in order; if its new position is `< x0` or
`>= xmax` it is erased (the iterator moves to the next element),
otherwise it is kept and the iterator advances. -/
def pushLoop (dom : Domain) (qm dt : ℚ) (ef : ℤ → ℚ) : List Particle → List Particle
  | [] => []
  | p :: rest =>
    let q := pushParticle dom qm dt ef p
    if q.pos < dom.x0 ∨ dom.xmax ≤ q.pos then pushLoop dom qm dt ef rest
    else q :: pushLoop dom qm dt ef rest

/-- `PushSpecies`: `qm = charge/mass`, then the erase-as-you-go loop. -/
def PushSpecies (dom : Domain) (sp : Species) (ef : ℤ → ℚ) (dt : ℚ) : Species :=
  { sp with part_list := pushLoop dom (sp.charge / sp.mass) dt ef sp.part_list }

/-- `RewindSpecies`: rewind every velocity by half a step. -/
def RewindSpecies (dom : Domain) (sp : Species) (ef : ℤ → ℚ) (dt : ℚ) : Species :=
  { sp with
    part_list := sp.part_list.map fun p =>
      { p with vel := p.vel - 1 / 2 * dt * (sp.charge / sp.mass) * gather (XtoL dom p.pos) ef } }

/-! ### Electric field -/

/-- `ComputeEF`: central difference on interior nodes, one-sided at the
two boundaries.  The boundary assignments run after the interior loop,
`ef[0]` before `ef[ni-1]`, so on overlap the later write wins; nodes the
C code never writes keep the incoming `ef` value. -/
def ComputeEF (dom : Domain) (phi ef : ℤ → ℚ) : ℤ → ℚ :=
  fun i =>
    if i = (dom.ni : ℤ) - 1 then
      -(phi ((dom.ni : ℤ) - 1) - phi ((dom.ni : ℤ) - 2)) / dom.dx
    else if i = 0 then
      -(phi 1 - phi 0) / dom.dx
    else if 1 ≤ i ∧ i ≤ (dom.ni : ℤ) - 2 then
      -(phi (i + 1) - phi (i - 1)) / (2 * dom.dx)
    else ef i

/-! ### Potential solver 1: Gauss-Seidel / SOR (`SolvePotential`)

The solver works entirely on nodes `0..ni-1`, so its arrays are `ℕ → ℚ`.
The C code compares `sqrt(sum)/ni < 1e-4`; since both sides are
nonnegative and squaring is monotone, this is equivalent to
`sum < (1e-4 * ni)^2`, which is how the (irrational) square root is
rendered over `ℚ`. -/

/-- One in-place SOR update at node `i`
(`g = 0.5*(phi[i-1]+phi[i+1]+dx2*rho[i]/EPS)`; `phi[i] += 1.4*(g-phi[i])`). -/
def sorUpdate (dx2 eps : ℚ) (rho : ℕ → ℚ) (phi : ℕ → ℚ) (i : ℕ) : ℕ → ℚ :=
  Function.update phi i
    (phi i + 7 / 5 * (1 / 2 * (phi (i - 1) + phi (i + 1) + dx2 * rho i / eps) - phi i))

/-- One full sweep `for(i=1; i<ni-1; i++)`, sequential in-place updates. -/
def sorSweep (ni : ℕ) (dx2 eps : ℚ) (rho : ℕ → ℚ) (phi : ℕ → ℚ) : ℕ → ℚ :=
  (List.range' 1 (ni - 2)).foldl (sorUpdate dx2 eps rho) phi

/-- The residual sum `sum += R*R` over interior nodes, with
`R = -rho[i]/EPS - (phi[i-1]-2*phi[i]+phi[i+1])/dx2`. -/
def residSum (ni : ℕ) (dx2 eps : ℚ) (rho : ℕ → ℚ) (phi : ℕ → ℚ) : ℚ :=
  ((List.range' 1 (ni - 2)).map fun i =>
    let R := -rho i / eps - (phi (i - 1) - 2 * phi i + phi (i + 1)) / dx2
    R * R).sum

/-- The convergence test `sqrt(sum)/ni < 1e-4`, rendered squared. -/
def sorConverged (ni : ℕ) (sum : ℚ) : Prop :=
  sum < (1 / 10 ^ 4 * (ni : ℚ)) ^ 2

instance (ni : ℕ) (sum : ℚ) : Decidable (sorConverged ni sum) := by
  unfold sorConverged; infer_instance

/-- The iteration loop of `SolvePotential`: `it` is the loop counter,
`fuel` the remaining iterations of the 200000 budget.  Each iteration
sweeps once; every 25th iteration checks convergence and returns `true`
immediately on success; an exhausted budget returns `false` with the
last computed potential. -/
def sorLoop (ni : ℕ) (dx2 eps : ℚ) (rho : ℕ → ℚ) : ℕ → ℕ → (ℕ → ℚ) → Bool × (ℕ → ℚ)
  | _, 0, phi => (false, phi)
  | it, fuel + 1, phi =>
    let phi2 := sorSweep ni dx2 eps rho phi
    if it % 25 = 0 ∧ sorConverged ni (residSum ni dx2 eps rho phi2) then (true, phi2)
    else sorLoop ni dx2 eps rho (it + 1) fuel phi2

/-- `SolvePotential`: pin `phi[0] = phi[ni-1] = 0`, then run up to 200000
SOR sweeps; returns the success flag and the final potential array. -/
def SolvePotential (ni : ℕ) (dx2 eps : ℚ) (phi rho : ℕ → ℚ) : Bool × (ℕ → ℚ) :=
  let phi0 := Function.update (Function.update phi (ni - 1) 0) 0 0
  sorLoop ni dx2 eps rho 0 200000 phi0

/-! ### Potential solver 2: direct tridiagonal (Thomas) solver
(`SolvePotentialDirect`)

Coefficients: `a[i]=1, b[i]=-2, c[i]=1` on interior nodes and
`a=0, b=1, c=0` on the two boundary rows; right-hand side
`x[i] = -rho[i]*dx2/EPS` interior, `0` at the boundaries.  The forward
elimination overwrites `c` and `x` in place (`cp`, `xp` below give the
value each cell holds after the sweep passes it), and the backward
substitution then rebuilds `x` from the top down (`solAux k` is the
final value of node `ni-1-k`). -/

def coefA (ni i : ℕ) : ℚ := if i = 0 ∨ i = ni - 1 then 0 else 1
def coefB (ni i : ℕ) : ℚ := if i = 0 ∨ i = ni - 1 then 1 else -2
def coefC (ni i : ℕ) : ℚ := if i = 0 ∨ i = ni - 1 then 0 else 1

/-- Right-hand side loaded into `x` before the forward sweep. -/
def rhs (ni : ℕ) (dx2 eps : ℚ) (rho : ℕ → ℚ) (i : ℕ) : ℚ :=
  if i = 0 ∨ i = ni - 1 then 0 else -rho i * dx2 / eps

/-- Forward-eliminated `c` coefficients (`c[0]/=b[0]`, then
`c[i] /= b[i]-c[i-1]*a[i]`). -/
def cp (ni : ℕ) : ℕ → ℚ
  | 0 => coefC ni 0 / coefB ni 0
  | i + 1 => coefC ni (i + 1) / (coefB ni (i + 1) - cp ni i * coefA ni (i + 1))

/-- Forward-eliminated right-hand side (`x[0]/=b[0]`, then
`x[i] = (x[i]-x[i-1]*a[i])/(b[i]-c[i-1]*a[i])`). -/
def xp (ni : ℕ) (dx2 eps : ℚ) (rho : ℕ → ℚ) : ℕ → ℚ
  | 0 => rhs ni dx2 eps rho 0 / coefB ni 0
  | i + 1 =>
    (rhs ni dx2 eps rho (i + 1) - xp ni dx2 eps rho i * coefA ni (i + 1)) /
      (coefB ni (i + 1) - cp ni i * coefA ni (i + 1))

/-- Backward substitution, indexed from the top: `solAux k` is the final
value of node `ni-1-k` (`x[ni-1]` is left as eliminated; below it,
`x[i] = x[i] - c[i]*x[i+1]`). -/
def solAux (ni : ℕ) (dx2 eps : ℚ) (rho : ℕ → ℚ) : ℕ → ℚ
  | 0 => xp ni dx2 eps rho (ni - 1)
  | k + 1 => xp ni dx2 eps rho (ni - 1 - (k + 1)) - cp ni (ni - 1 - (k + 1)) * solAux ni dx2 eps rho k

/-- `SolvePotentialDirect`: the potential at node `i` after the Thomas
solve (the C function also returns `true` unconditionally). -/
def SolvePotentialDirect (ni : ℕ) (dx2 eps : ℚ) (rho : ℕ → ℚ) (i : ℕ) : ℚ :=
  solAux ni dx2 eps rho (ni - 1 - i)

/-! ### Generic lemmas -/

theorem truncQ_natCast_add (i : ℕ) (di : ℚ) (h0 : 0 ≤ di) (h1 : di < 1) :
    truncQ ((i : ℚ) + di) = (i : ℤ) := by
  rw [truncQ_of_nonneg (add_nonneg (by positivity) h0)]
  rw [Int.floor_eq_iff]
  constructor
  · push_cast; linarith
  · push_cast; linarith

/-- C6: scattering a weight `w` at logical coordinate `i + di`
(`0 ≤ di < 1`) into a zeroed field deposits `w*(1-di)` on node `i`,
`w*di` on node `i+1`, nothing elsewhere, and the two deposits sum to
exactly `w`. -/
theorem scatter_charge_conservation (w : ℚ) (i : ℕ) (di : ℚ)
    (h0 : 0 ≤ di) (h1 : di < 1) :
    scatter ((i : ℚ) + di) w (fun _ => 0) (i : ℤ) = w * (1 - di) ∧
    scatter ((i : ℚ) + di) w (fun _ => 0) ((i : ℤ) + 1) = w * di ∧
    (∀ n : ℤ, n ≠ (i : ℤ) → n ≠ (i : ℤ) + 1 →
      scatter ((i : ℚ) + di) w (fun _ => 0) n = 0) ∧
    scatter ((i : ℚ) + di) w (fun _ => 0) (i : ℤ) +
      scatter ((i : ℚ) + di) w (fun _ => 0) ((i : ℤ) + 1) = w := by
  have htr : truncQ ((i : ℚ) + di) = (i : ℤ) := truncQ_natCast_add i di h0 h1
  have hfrac : (i : ℚ) + di - ((truncQ ((i : ℚ) + di) : ℤ) : ℚ) = di := by
    rw [htr]; push_cast; ring
  have hA : scatter ((i : ℚ) + di) w (fun _ => 0) (i : ℤ) = w * (1 - di) := by
    rw [scatter_apply, htr]
    rw [if_pos rfl, if_neg (by omega)]
    push_cast; ring
  have hB : scatter ((i : ℚ) + di) w (fun _ => 0) ((i : ℤ) + 1) = w * di := by
    rw [scatter_apply, htr]
    rw [if_neg (by omega), if_pos rfl]
    push_cast; ring
  refine ⟨hA, hB, ?_, ?_⟩
  · intro n hn hn1
    rw [scatter_apply, htr, if_neg hn, if_neg hn1]
    ring
  · rw [hA, hB]; ring

/-- C9: for a position inside `[x0, xmax)` (with `xmax = x0 + (ni-1)*dx`
as constructed in `main`), the logical coordinate lies in `[0, ni-1)`,
so the pair of nodes touched by `scatter`/`gather` lies inside
`0 .. ni-1`. -/
theorem XtoL_bounds (dom : Domain) (pos : ℚ) (hdx : 0 < dom.dx)
    (hxm : dom.xmax = dom.x0 + ((dom.ni : ℚ) - 1) * dom.dx)
    (hlo : dom.x0 ≤ pos) (hhi : pos < dom.xmax) :
    0 ≤ XtoL dom pos ∧ XtoL dom pos < (dom.ni : ℚ) - 1 ∧
    0 ≤ truncQ (XtoL dom pos) ∧ truncQ (XtoL dom pos) + 1 ≤ (dom.ni : ℤ) - 1 := by
  have h0 : 0 ≤ XtoL dom pos := by
    unfold XtoL
    exact div_nonneg (by linarith) hdx.le
  have hlt : XtoL dom pos < (dom.ni : ℚ) - 1 := by
    unfold XtoL
    rw [div_lt_iff₀ hdx]
    rw [hxm] at hhi
    linarith
  have htr : truncQ (XtoL dom pos) = ⌊XtoL dom pos⌋ := truncQ_of_nonneg h0
  refine ⟨h0, hlt, ?_, ?_⟩
  · rw [htr]
    exact Int.floor_nonneg.mpr h0
  · rw [htr]
    have : ⌊XtoL dom pos⌋ < (dom.ni : ℤ) - 1 := by
      apply Int.floor_lt.mpr
      push_cast
      exact hlt
    omega

/-- Witness for `XtoL_bounds` at the program's domain and a concrete
interior position. -/
theorem XtoL_bounds_witness :
    (0 < mainDomain.dx ∧
      mainDomain.xmax = mainDomain.x0 + ((mainDomain.ni : ℚ) - 1) * mainDomain.dx ∧
      mainDomain.x0 ≤ (1 : ℚ) / 100 ∧ (1 : ℚ) / 100 < mainDomain.xmax) ∧
    0 ≤ truncQ (XtoL mainDomain (1 / 100)) ∧
    truncQ (XtoL mainDomain (1 / 100)) + 1 ≤ (mainDomain.ni : ℤ) - 1 := by
  have h1 : 0 < mainDomain.dx := by norm_num [mainDomain, DX]
  have h2 : mainDomain.xmax = mainDomain.x0 + ((mainDomain.ni : ℚ) - 1) * mainDomain.dx := by
    norm_num [mainDomain, DX, NC]
  have h3 : mainDomain.x0 ≤ (1 : ℚ) / 100 := by norm_num [mainDomain]
  have h4 : (1 : ℚ) / 100 < mainDomain.xmax := by norm_num [mainDomain, DX, NC]
  have h := XtoL_bounds mainDomain (1 / 100) h1 h2 h3 h4
  exact ⟨⟨h1, h2, h3, h4⟩, h.2.2.1, h.2.2.2⟩

/-- C7: the particle mover updates the velocity first, with the field
gathered at the pre-update position, and then moves the position with
the already-updated velocity (whenever the velocity kick is nonzero the
position genuinely differs from `x + dt*v_old`). -/
theorem pushParticle_order (dom : Domain) (qm dt : ℚ) (ef : ℤ → ℚ) (p : Particle) :
    (pushParticle dom qm dt ef p).vel =
      p.vel + dt * qm * gather (XtoL dom p.pos) ef ∧
    (pushParticle dom qm dt ef p).pos =
      p.pos + dt * (pushParticle dom qm dt ef p).vel ∧
    (dt * (dt * qm * gather (XtoL dom p.pos) ef) ≠ 0 →
      (pushParticle dom qm dt ef p).pos ≠ p.pos + dt * p.vel) := by
  refine ⟨rfl, rfl, ?_⟩
  intro hne heq
  apply hne
  have : p.pos + dt * (p.vel + dt * qm * gather (XtoL dom p.pos) ef) =
      p.pos + dt * p.vel := heq
  linarith [this]

/-- Witness for `pushParticle_order`: unit field, unit time step. -/
theorem pushParticle_order_witness :
    (1 : ℚ) * (1 * 1 * gather (XtoL mainDomain 0) (fun _ => 1)) ≠ 0 ∧
    (pushParticle mainDomain 1 1 (fun _ => 1) { pos := 0, vel := 0 }).pos ≠
      0 + 1 * (0 : ℚ) := by
  have hg : gather (XtoL mainDomain 0) (fun _ => 1) = 1 := by
    norm_num [gather, XtoL, mainDomain, truncQ]
  have hne : (1 : ℚ) * (1 * 1 * gather (XtoL mainDomain 0) (fun _ => 1)) ≠ 0 := by
    rw [hg]; norm_num
  exact ⟨hne,
    (pushParticle_order mainDomain 1 1 (fun _ => 1) { pos := 0, vel := 0 }).2.2 hne⟩

/-- C8: `ComputeEF` is the central difference on interior nodes, the
one-sided differences at the two boundary nodes, is a function of the
potential alone on nodes `0..ni-1`, and maps a linear potential ramp
`phi[i] = c*i` to the constant field `-c/dx` on every node. -/
theorem ComputeEF_spec (dom : Domain) (phi ef : ℤ → ℚ) (hni : 2 ≤ dom.ni) :
    (∀ i : ℤ, 0 < i → i < (dom.ni : ℤ) - 1 →
      ComputeEF dom phi ef i = -(phi (i + 1) - phi (i - 1)) / (2 * dom.dx)) ∧
    ComputeEF dom phi ef 0 = -(phi 1 - phi 0) / dom.dx ∧
    ComputeEF dom phi ef ((dom.ni : ℤ) - 1) =
      -(phi ((dom.ni : ℤ) - 1) - phi ((dom.ni : ℤ) - 2)) / dom.dx ∧
    (∀ ef2 : ℤ → ℚ, ∀ i : ℤ, 0 ≤ i → i ≤ (dom.ni : ℤ) - 1 →
      ComputeEF dom phi ef i = ComputeEF dom phi ef2 i) ∧
    (∀ c : ℚ, (∀ j : ℤ, phi j = c * (j : ℚ)) →
      ∀ i : ℤ, 0 ≤ i → i ≤ (dom.ni : ℤ) - 1 →
      ComputeEF dom phi ef i = -c / dom.dx) := by
  have hni' : 2 ≤ (dom.ni : ℤ) := by exact_mod_cast hni
  have hint : ∀ i : ℤ, 0 < i → i < (dom.ni : ℤ) - 1 →
      ComputeEF dom phi ef i = -(phi (i + 1) - phi (i - 1)) / (2 * dom.dx) := by
    intro i h1 h2
    unfold ComputeEF
    rw [if_neg (by omega), if_neg (by omega), if_pos (by omega)]
  have hb0 : ComputeEF dom phi ef 0 = -(phi 1 - phi 0) / dom.dx := by
    unfold ComputeEF
    rw [if_neg (by omega), if_pos rfl]
  have hb1 : ComputeEF dom phi ef ((dom.ni : ℤ) - 1) =
      -(phi ((dom.ni : ℤ) - 1) - phi ((dom.ni : ℤ) - 2)) / dom.dx := by
    unfold ComputeEF
    rw [if_pos rfl]
  refine ⟨hint, hb0, hb1, ?_, ?_⟩
  · intro ef2 i h0 h1
    unfold ComputeEF
    rcases eq_or_ne i ((dom.ni : ℤ) - 1) with h | h
    · rw [if_pos h, if_pos h]
    · rcases eq_or_ne i 0 with h' | h'
      · rw [if_neg h, if_neg h, if_pos h', if_pos h']
      · rw [if_neg h, if_neg h, if_neg h', if_neg h', if_pos (by omega), if_pos (by omega)]
  · intro c hramp i h0 h1
    rcases eq_or_ne i ((dom.ni : ℤ) - 1) with h | h
    · subst h
      rw [hb1, hramp, hramp]
      push_cast
      ring_nf
    · rcases eq_or_ne i 0 with h' | h'
      · subst h'
        rw [hb0, hramp, hramp]
        push_cast
        ring_nf
      · rw [hint i (by omega) (by omega), hramp, hramp]
        have : -(c * ((i : ℚ) + 1) - c * ((i : ℚ) - 1)) / (2 * dom.dx) = -c / dom.dx := by
          rw [show -(c * ((i : ℚ) + 1) - c * ((i : ℚ) - 1)) = 2 * -c by ring,
            show (2 : ℚ) * dom.dx = 2 * dom.dx from rfl]
          exact mul_div_mul_left (-c) dom.dx two_ne_zero
        push_cast
        push_cast at this
        exact this

/-! ### C1: initialization particle count -/

theorem initStep_length (sqrtQ : ℚ → ℚ) (rs : ℕ → ℚ) (dom : Domain) (sp : Species) (p : ℕ) :
    (initStep sqrtQ rs dom sp p).part_list.length = sp.part_list.length + 1 := by
  simp [initStep, Species.add]

theorem foldl_initStep_length (sqrtQ : ℚ → ℚ) (rs : ℕ → ℚ) (dom : Domain) :
    ∀ (l : List ℕ) (sp : Species),
      (l.foldl (initStep sqrtQ rs dom) sp).part_list.length =
        sp.part_list.length + l.length := by
  intro l
  induction l with
  | nil => intro sp; simp
  | cons p rest ih =>
    intro sp
    rw [List.foldl_cons, ih, initStep_length]
    simp only [List.length_cons]
    omega

/-- C1: `Init` adds exactly `NUM_IONS` particles to every species it is
called on — the loop bound is the global `NUM_IONS`, not the species'
configured `NUM`.  In particular the electron population ends up with
30000 particles although its configured count is `NUM_ELECTRONS = 80000`. -/
theorem Init_electron_count (sqrtQ : ℚ → ℚ) (rs : ℕ → ℚ) (dom : Domain) :
    (Init sqrtQ rs dom electronsSpecies).part_list.length = 30000 ∧
    electronsSpecies.NUM = 80000 ∧
    (Init sqrtQ rs dom electronsSpecies).part_list.length ≠ electronsSpecies.NUM ∧
    ∀ sp : Species,
      (Init sqrtQ rs dom sp).part_list.length = sp.part_list.length + NUM_IONS := by
  have hgen : ∀ sp : Species,
      (Init sqrtQ rs dom sp).part_list.length = sp.part_list.length + NUM_IONS := by
    intro sp
    unfold Init
    rw [foldl_initStep_length]
    simp
  have he : (Init sqrtQ rs dom electronsSpecies).part_list.length = 30000 := by
    rw [hgen]
    simp [electronsSpecies, mkSpecies, NUM_IONS]
  refine ⟨he, rfl, ?_, hgen⟩
  rw [he]
  simp [electronsSpecies, mkSpecies, NUM_ELECTRONS]

/-! ### C2: the particle mover removes exactly the out-of-domain particles -/

theorem pushLoop_eq_filter_map (dom : Domain) (qm dt : ℚ) (ef : ℤ → ℚ) :
    ∀ l : List Particle,
      pushLoop dom qm dt ef l =
        (l.map (pushParticle dom qm dt ef)).filter
          (fun q => !decide (q.pos < dom.x0 ∨ dom.xmax ≤ q.pos)) := by
  intro l
  induction l with
  | nil => rfl
  | cons p rest ih =>
    simp only [pushLoop, List.map_cons, List.filter_cons]
    by_cases h : (pushParticle dom qm dt ef p).pos < dom.x0 ∨
        dom.xmax ≤ (pushParticle dom qm dt ef p).pos
    · rw [if_pos h, ih]
      simp [h]
    · rw [if_neg h, ih]
      simp [h]

theorem filter_not_length_add_countP {α : Type} (p : α → Bool) :
    ∀ l : List α, (l.filter fun a => !p a).length + l.countP p = l.length := by
  intro l
  induction l with
  | nil => rfl
  | cons a rest ih =>
    cases h : p a <;> simp [List.filter_cons, List.countP_cons, h] <;> omega

/-- C2: one `PushSpecies` call processes every particle exactly once, in
order; the surviving list is exactly the pushed particles whose new
position stayed inside `[x0, xmax)`, and the particle count drops by
exactly the number of pushed particles that left the domain (so the
count never increases). -/
theorem PushSpecies_spec (dom : Domain) (sp : Species) (ef : ℤ → ℚ) (dt : ℚ) :
    (PushSpecies dom sp ef dt).part_list =
      (sp.part_list.map (pushParticle dom (sp.charge / sp.mass) dt ef)).filter
        (fun q => !decide (q.pos < dom.x0 ∨ dom.xmax ≤ q.pos)) ∧
    (PushSpecies dom sp ef dt).part_list.length +
      (sp.part_list.map (pushParticle dom (sp.charge / sp.mass) dt ef)).countP
        (fun q => decide (q.pos < dom.x0 ∨ dom.xmax ≤ q.pos)) =
      sp.part_list.length ∧
    (PushSpecies dom sp ef dt).part_list.length ≤ sp.part_list.length := by
  have heq : (PushSpecies dom sp ef dt).part_list =
      (sp.part_list.map (pushParticle dom (sp.charge / sp.mass) dt ef)).filter
        (fun q => !decide (q.pos < dom.x0 ∨ dom.xmax ≤ q.pos)) :=
    pushLoop_eq_filter_map dom (sp.charge / sp.mass) dt ef sp.part_list
  have hlen : (PushSpecies dom sp ef dt).part_list.length +
      (sp.part_list.map (pushParticle dom (sp.charge / sp.mass) dt ef)).countP
        (fun q => decide (q.pos < dom.x0 ∨ dom.xmax ≤ q.pos)) =
      sp.part_list.length := by
    rw [heq]
    rw [filter_not_length_add_countP]
    exact List.length_map _ _
  exact ⟨heq, hlen, by omega⟩

/-! ### C5: density deposition produces a fresh snapshot -/

theorem scatter_add_deposit (dom : Domain) (w : ℚ) (p : Particle) (f : ℤ → ℚ) (n : ℤ) :
    scatter (XtoL dom p.pos) w f n = f n + deposit dom w n p := by
  rw [scatter_apply]
  unfold deposit
  ring

theorem foldl_scatter_apply (dom : Domain) (w : ℚ) :
    ∀ (l : List Particle) (f : ℤ → ℚ) (n : ℤ),
      (l.foldl (fun g p => scatter (XtoL dom p.pos) w g) f) n =
        f n + (l.map (deposit dom w n)).sum := by
  intro l
  induction l with
  | nil => intro f n; simp
  | cons p rest ih =>
    intro f n
    rw [List.foldl_cons, ih, scatter_add_deposit]
    simp only [List.map_cons, List.sum_cons]
    ring

/-- C5: `ScatterSpecies` ignores the incoming field (the snapshot is a
function of the current particle set alone), and each node's value is
the linearly weighted particle sum divided by `dx`, doubled at the two
boundary nodes. -/
theorem ScatterSpecies_spec (dom : Domain) (sp : Species) (f1 f2 : ℤ → ℚ)
    (hni : 2 ≤ dom.ni) (hdx : 0 < dom.dx)
    (hin : ∀ p ∈ sp.part_list, dom.x0 ≤ p.pos ∧ p.pos < dom.xmax) :
    ScatterSpecies dom sp f1 = ScatterSpecies dom sp f2 ∧
    ∀ n : ℤ, ScatterSpecies dom sp f1 n =
      (if n = 0 ∨ n = (dom.ni : ℤ) - 1 then 2 else 1) *
        ((sp.part_list.map fun p =>
          (if n = ⌊XtoL dom p.pos⌋ then
            sp.spwt * (1 - (XtoL dom p.pos - (⌊XtoL dom p.pos⌋ : ℚ))) else 0) +
          (if n = ⌊XtoL dom p.pos⌋ + 1 then
            sp.spwt * (XtoL dom p.pos - (⌊XtoL dom p.pos⌋ : ℚ)) else 0)).sum / dom.dx) := by
  refine ⟨rfl, ?_⟩
  intro n
  have hni' : (2 : ℤ) ≤ (dom.ni : ℤ) := by exact_mod_cast hni
  have hmap : (sp.part_list.map (deposit dom sp.spwt n)) =
      sp.part_list.map fun p =>
        (if n = ⌊XtoL dom p.pos⌋ then
          sp.spwt * (1 - (XtoL dom p.pos - (⌊XtoL dom p.pos⌋ : ℚ))) else 0) +
        (if n = ⌊XtoL dom p.pos⌋ + 1 then
          sp.spwt * (XtoL dom p.pos - (⌊XtoL dom p.pos⌋ : ℚ)) else 0) := by
    apply List.map_congr_left
    intro p hp
    have h0 : 0 ≤ XtoL dom p.pos := by
      unfold XtoL
      exact div_nonneg (by linarith [(hin p hp).1]) hdx.le
    unfold deposit
    rw [truncQ_of_nonneg h0]
  have hacc : ∀ m : ℤ,
      (sp.part_list.foldl (fun g p => scatter (XtoL dom p.pos) sp.spwt g)
        (fun _ => (0 : ℚ))) m = ((sp.part_list.map (deposit dom sp.spwt m)).sum) := by
    intro m
    rw [foldl_scatter_apply]
    exact zero_add _
  show (Function.update _ ((dom.ni : ℤ) - 1) _) n = _
  by_cases hn1 : n = (dom.ni : ℤ) - 1
  · subst hn1
    rw [Function.update_same]
    rw [Function.update_noteq (by omega)]
    rw [if_pos (Or.inr rfl)]
    simp only [hacc, hmap]
    ring
  · rw [Function.update_noteq hn1]
    by_cases hn0 : n = 0
    · subst hn0
      rw [Function.update_same]
      rw [if_pos (Or.inl rfl)]
      simp only [hacc, hmap]
      ring
    · rw [Function.update_noteq hn0]
      rw [if_neg (by tauto)]
      simp only [hacc, hmap]
      ring

/-- Witness for `ScatterSpecies_spec`: the program's domain, the ion
species with one particle in the middle of the domain. -/
theorem ScatterSpecies_spec_witness :
    (2 ≤ mainDomain.ni ∧ 0 < mainDomain.dx ∧
      (∀ p ∈ [({ pos := 1 / 100, vel := 0 } : Particle)],
        mainDomain.x0 ≤ p.pos ∧ p.pos < mainDomain.xmax)) ∧
    ScatterSpecies mainDomain { ionsSpecies with part_list := [{ pos := 1 / 100, vel := 0 }] }
        (fun _ => 0) =
      ScatterSpecies mainDomain { ionsSpecies with part_list := [{ pos := 1 / 100, vel := 0 }] }
        (fun _ => 37) := by
  have h1 : 2 ≤ mainDomain.ni := by norm_num [mainDomain, NC]
  have h2 : 0 < mainDomain.dx := by norm_num [mainDomain, DX]
  have h3 : ∀ p ∈ [({ pos := 1 / 100, vel := 0 } : Particle)],
      mainDomain.x0 ≤ p.pos ∧ p.pos < mainDomain.xmax := by
    intro p hp
    simp only [List.mem_singleton] at hp
    subst hp
    constructor
    · norm_num [mainDomain]
    · norm_num [mainDomain, DX, NC]
  exact ⟨⟨h1, h2, h3⟩,
    (ScatterSpecies_spec mainDomain
      { ionsSpecies with part_list := [{ pos := 1 / 100, vel := 0 }] }
      (fun _ => 0) (fun _ => 37) h1 h2 h3).1⟩

/-! ### C3: correctness of the direct tridiagonal solver -/

theorem cp_zero (ni : ℕ) : cp ni 0 = 0 := by
  show coefC ni 0 / coefB ni 0 = 0
  unfold coefC coefB
  simp

theorem cp_interior (ni : ℕ) :
    ∀ i : ℕ, i ≤ ni - 2 → cp ni i = -(i : ℚ) / ((i : ℚ) + 1) := by
  intro i
  induction i with
  | zero =>
    intro _
    rw [cp_zero]
    norm_num
  | succ j ih =>
    intro h
    have hj : j ≤ ni - 2 := by omega
    show coefC ni (j + 1) / (coefB ni (j + 1) - cp ni j * coefA ni (j + 1)) = _
    rw [ih hj]
    unfold coefA coefB coefC
    have hcond : ¬(j + 1 = 0 ∨ j + 1 = ni - 1) := by omega
    simp only [if_neg hcond]
    have hj1 : ((j : ℚ) + 1) ≠ 0 := by positivity
    have hj2 : ((j : ℚ) + 2) ≠ 0 := by positivity
    have hden : (-2 - -(j : ℚ) / ((j : ℚ) + 1) * 1) = -((j : ℚ) + 2) / ((j : ℚ) + 1) := by
      field_simp
      ring
    rw [hden, one_div_div]
    push_cast
    rw [div_neg, neg_div]
    ring_nf

theorem thomasDen_interior (ni : ℕ) (j : ℕ) (h2 : j + 1 ≤ ni - 2) :
    coefB ni (j + 1) - cp ni j * coefA ni (j + 1) = -((j : ℚ) + 2) / ((j : ℚ) + 1) ∧
    coefB ni (j + 1) - cp ni j * coefA ni (j + 1) ≠ 0 := by
  have hj : j ≤ ni - 2 := by omega
  have hcond : ¬(j + 1 = 0 ∨ j + 1 = ni - 1) := by omega
  have hj1 : ((j : ℚ) + 1) ≠ 0 := by positivity
  have hj2 : ((j : ℚ) + 2) ≠ 0 := by positivity
  have hval : coefB ni (j + 1) - cp ni j * coefA ni (j + 1) =
      -((j : ℚ) + 2) / ((j : ℚ) + 1) := by
    rw [cp_interior ni j hj]
    unfold coefA coefB
    rw [if_neg hcond, if_neg hcond]
    field_simp
    ring
  refine ⟨hval, ?_⟩
  rw [hval]
  intro hc
  rw [div_eq_zero_iff] at hc
  rcases hc with hc | hc
  · exact hj2 (by linarith [neg_eq_zero.mp hc])
  · exact hj1 hc

theorem xp_succ_mul (ni : ℕ) (dx2 eps : ℚ) (rho : ℕ → ℚ) (j : ℕ)
    (hden : coefB ni (j + 1) - cp ni j * coefA ni (j + 1) ≠ 0) :
    xp ni dx2 eps rho (j + 1) * (coefB ni (j + 1) - cp ni j * coefA ni (j + 1)) =
      rhs ni dx2 eps rho (j + 1) - xp ni dx2 eps rho j * coefA ni (j + 1) := by
  show (rhs ni dx2 eps rho (j + 1) - xp ni dx2 eps rho j * coefA ni (j + 1)) /
      (coefB ni (j + 1) - cp ni j * coefA ni (j + 1)) * _ = _
  exact div_mul_cancel₀ _ hden

theorem cp_succ_mul (ni : ℕ) (j : ℕ)
    (hden : coefB ni (j + 1) - cp ni j * coefA ni (j + 1) ≠ 0) :
    cp ni (j + 1) * (coefB ni (j + 1) - cp ni j * coefA ni (j + 1)) = coefC ni (j + 1) := by
  show coefC ni (j + 1) / (coefB ni (j + 1) - cp ni j * coefA ni (j + 1)) * _ = _
  exact div_mul_cancel₀ _ hden

theorem sol_backsub (ni : ℕ) (dx2 eps : ℚ) (rho : ℕ → ℚ) (i : ℕ) (h : i < ni - 1) :
    SolvePotentialDirect ni dx2 eps rho i =
      xp ni dx2 eps rho i - cp ni i * SolvePotentialDirect ni dx2 eps rho (i + 1) := by
  unfold SolvePotentialDirect
  obtain ⟨k, hk⟩ : ∃ k, ni - 1 - i = k + 1 := ⟨ni - 1 - i - 1, by omega⟩
  rw [hk]
  show xp ni dx2 eps rho (ni - 1 - (k + 1)) -
      cp ni (ni - 1 - (k + 1)) * solAux ni dx2 eps rho k = _
  have e1 : ni - 1 - (k + 1) = i := by omega
  have e2 : ni - 1 - (i + 1) = k := by omega
  rw [e1, e2]

theorem sol_zero (ni : ℕ) (dx2 eps : ℚ) (rho : ℕ → ℚ) (h : 2 ≤ ni) :
    SolvePotentialDirect ni dx2 eps rho 0 = 0 := by
  rw [sol_backsub ni dx2 eps rho 0 (by omega), cp_zero]
  have hx0 : xp ni dx2 eps rho 0 = 0 := by
    show rhs ni dx2 eps rho 0 / coefB ni 0 = 0
    unfold rhs
    rw [if_pos (Or.inl rfl)]
    simp
  rw [hx0]
  ring

theorem sol_top (ni : ℕ) (dx2 eps : ℚ) (rho : ℕ → ℚ) (h : 2 ≤ ni) :
    SolvePotentialDirect ni dx2 eps rho (ni - 1) = 0 := by
  unfold SolvePotentialDirect
  rw [Nat.sub_self]
  show xp ni dx2 eps rho (ni - 1) = 0
  obtain ⟨m, hm⟩ : ∃ m, ni - 1 = m + 1 := ⟨ni - 2, by omega⟩
  rw [hm]
  show (rhs ni dx2 eps rho (m + 1) - xp ni dx2 eps rho m * coefA ni (m + 1)) /
      (coefB ni (m + 1) - cp ni m * coefA ni (m + 1)) = 0
  have hA : coefA ni (m + 1) = 0 := by
    unfold coefA
    rw [if_pos (Or.inr (by omega))]
  have hr : rhs ni dx2 eps rho (m + 1) = 0 := by
    unfold rhs
    rw [if_pos (Or.inr (by omega))]
  rw [hA, hr]
  simp

theorem sol_interior (ni : ℕ) (dx2 eps : ℚ) (rho : ℕ → ℚ) (i : ℕ)
    (h1 : 0 < i) (h2 : i < ni - 1) :
    SolvePotentialDirect ni dx2 eps rho (i - 1) -
      2 * SolvePotentialDirect ni dx2 eps rho i +
      SolvePotentialDirect ni dx2 eps rho (i + 1) = -rho i * dx2 / eps := by
  obtain ⟨j, rfl⟩ : ∃ j, i = j + 1 := ⟨i - 1, by omega⟩
  have hj2 : j + 1 ≤ ni - 2 := by omega
  have hcond : ¬(j + 1 = 0 ∨ j + 1 = ni - 1) := by omega
  have hden := (thomasDen_interior ni j hj2).2
  have hxp := xp_succ_mul ni dx2 eps rho j hden
  have hcp := cp_succ_mul ni j hden
  have hA : coefA ni (j + 1) = 1 := by unfold coefA; rw [if_neg hcond]
  have hB : coefB ni (j + 1) = -2 := by unfold coefB; rw [if_neg hcond]
  have hC : coefC ni (j + 1) = 1 := by unfold coefC; rw [if_neg hcond]
  have hrhs : rhs ni dx2 eps rho (j + 1) = -rho (j + 1) * dx2 / eps := by
    unfold rhs
    rw [if_neg hcond]
  rw [hA, hB, hrhs] at hxp
  rw [hA, hB, hC] at hcp
  have hb1 : SolvePotentialDirect ni dx2 eps rho j =
      xp ni dx2 eps rho j - cp ni j * SolvePotentialDirect ni dx2 eps rho (j + 1) :=
    sol_backsub ni dx2 eps rho j (by omega)
  have hb2 : SolvePotentialDirect ni dx2 eps rho (j + 1) =
      xp ni dx2 eps rho (j + 1) -
        cp ni (j + 1) * SolvePotentialDirect ni dx2 eps rho (j + 1 + 1) :=
    sol_backsub ni dx2 eps rho (j + 1) (by omega)
  have e0 : j + 1 - 1 = j := by omega
  rw [e0, hb1, hb2]
  linear_combination hxp - SolvePotentialDirect ni dx2 eps rho (j + 1 + 1) * hcp

theorem xp_of_rho_zero (ni : ℕ) (dx2 eps : ℚ) (rho : ℕ → ℚ) (hz : ∀ j, rho j = 0) :
    ∀ i, xp ni dx2 eps rho i = 0 := by
  have hr : ∀ i, rhs ni dx2 eps rho i = 0 := by
    intro i
    unfold rhs
    rw [hz]
    split <;> simp
  intro i
  induction i with
  | zero =>
    show rhs ni dx2 eps rho 0 / coefB ni 0 = 0
    rw [hr]
    simp
  | succ j ih =>
    show (rhs ni dx2 eps rho (j + 1) - xp ni dx2 eps rho j * coefA ni (j + 1)) /
        (coefB ni (j + 1) - cp ni j * coefA ni (j + 1)) = 0
    rw [hr, ih]
    simp

theorem solAux_of_rho_zero (ni : ℕ) (dx2 eps : ℚ) (rho : ℕ → ℚ) (hz : ∀ j, rho j = 0) :
    ∀ k, solAux ni dx2 eps rho k = 0 := by
  intro k
  induction k with
  | zero =>
    show xp ni dx2 eps rho (ni - 1) = 0
    exact xp_of_rho_zero ni dx2 eps rho hz _
  | succ m ih =>
    show xp ni dx2 eps rho (ni - 1 - (m + 1)) -
        cp ni (ni - 1 - (m + 1)) * solAux ni dx2 eps rho m = 0
    rw [xp_of_rho_zero ni dx2 eps rho hz, ih]
    ring

/-- C3: after the direct (Thomas) solve, the potential vanishes at both
boundary nodes and satisfies the discrete Poisson equation
`-(phi[i-1]-2*phi[i]+phi[i+1])/dx^2 = rho[i]/EPS` at every interior
node; a zero charge density yields the identically zero potential. -/
theorem SolvePotentialDirect_spec (ni : ℕ) (dx eps : ℚ) (rho : ℕ → ℚ)
    (hni : 2 ≤ ni) (hdx : dx ≠ 0) (heps : eps ≠ 0) :
    SolvePotentialDirect ni (dx * dx) eps rho 0 = 0 ∧
    SolvePotentialDirect ni (dx * dx) eps rho (ni - 1) = 0 ∧
    (∀ i : ℕ, 0 < i → i < ni - 1 →
      -(SolvePotentialDirect ni (dx * dx) eps rho (i - 1) -
          2 * SolvePotentialDirect ni (dx * dx) eps rho i +
          SolvePotentialDirect ni (dx * dx) eps rho (i + 1)) / (dx * dx) =
        rho i / eps) ∧
    ((∀ j, rho j = 0) → ∀ i, SolvePotentialDirect ni (dx * dx) eps rho i = 0) := by
  refine ⟨sol_zero ni (dx * dx) eps rho hni, sol_top ni (dx * dx) eps rho hni, ?_, ?_⟩
  · intro i h1 h2
    rw [sol_interior ni (dx * dx) eps rho i h1 h2]
    field_simp
    ring
  · intro hz i
    unfold SolvePotentialDirect
    exact solAux_of_rho_zero ni (dx * dx) eps rho hz _

/-- Witness for `SolvePotentialDirect_spec`: five nodes, unit spacing,
unit permittivity, zero charge density. -/
theorem SolvePotentialDirect_spec_witness :
    (2 ≤ 5 ∧ (1 : ℚ) ≠ 0) ∧
    SolvePotentialDirect 5 ((1 : ℚ) * 1) 1 (fun _ => 0) 0 = 0 := by
  refine ⟨⟨by norm_num, by norm_num⟩, ?_⟩
  exact (SolvePotentialDirect_spec 5 1 1 (fun _ => 0) (by norm_num) (by norm_num)
    (by norm_num)).1

/-! ### C4: behaviour of the Gauss-Seidel/SOR solver -/

theorem sorLoop_true_iff (ni : ℕ) (dx2 eps : ℚ) (rho : ℕ → ℚ) :
    ∀ (fuel it : ℕ) (phi : ℕ → ℚ),
      (sorLoop ni dx2 eps rho it fuel phi).1 = true ↔
        ∃ k < fuel, (it + k) % 25 = 0 ∧
          sorConverged ni (residSum ni dx2 eps rho
            ((sorSweep ni dx2 eps rho)^[k + 1] phi)) := by
  intro fuel
  induction fuel with
  | zero =>
    intro it phi
    simp [sorLoop]
  | succ fuel ih =>
    intro it phi
    rw [sorLoop]
    by_cases hc : it % 25 = 0 ∧
        sorConverged ni (residSum ni dx2 eps rho (sorSweep ni dx2 eps rho phi))
    · rw [if_pos hc]
      simp only [true_iff]
      exact ⟨0, by omega, by simpa using hc.1, by simpa using hc.2⟩
    · rw [if_neg hc]
      rw [ih]
      constructor
      · rintro ⟨k, hk, hmod, hconv⟩
        refine ⟨k + 1, by omega, ?_, ?_⟩
        · have : it + (k + 1) = it + 1 + k := by omega
          rw [this]; exact hmod
        · rw [Function.iterate_succ_apply]
          exact hconv
      · rintro ⟨k, hk, hmod, hconv⟩
        match k with
        | 0 =>
          exfalso
          apply hc
          constructor
          · simpa using hmod
          · simpa using hconv
        | m + 1 =>
          refine ⟨m, by omega, ?_, ?_⟩
          · have : it + 1 + m = it + (m + 1) := by omega
            rw [this]; exact hmod
          · rw [← Function.iterate_succ_apply]
            exact hconv

theorem sorLoop_false_snd (ni : ℕ) (dx2 eps : ℚ) (rho : ℕ → ℚ) :
    ∀ (fuel it : ℕ) (phi : ℕ → ℚ),
      (sorLoop ni dx2 eps rho it fuel phi).1 = false →
        (sorLoop ni dx2 eps rho it fuel phi).2 =
          (sorSweep ni dx2 eps rho)^[fuel] phi := by
  intro fuel
  induction fuel with
  | zero =>
    intro it phi _
    rfl
  | succ fuel ih =>
    intro it phi hfalse
    rw [sorLoop] at hfalse ⊢
    by_cases hc : it % 25 = 0 ∧
        sorConverged ni (residSum ni dx2 eps rho (sorSweep ni dx2 eps rho phi))
    · rw [if_pos hc] at hfalse
      exact absurd hfalse (by simp)
    · rw [if_neg hc] at hfalse ⊢
      rw [ih (it + 1) _ hfalse]
      rw [← Function.iterate_succ_apply]

theorem sorLoop_true_first (ni : ℕ) (dx2 eps : ℚ) (rho : ℕ → ℚ) :
    ∀ (fuel it : ℕ) (phi : ℕ → ℚ),
      (sorLoop ni dx2 eps rho it fuel phi).1 = true →
        ∃ k < fuel,
          ((it + k) % 25 = 0 ∧
            sorConverged ni (residSum ni dx2 eps rho
              ((sorSweep ni dx2 eps rho)^[k + 1] phi))) ∧
          (∀ j < k, ¬((it + j) % 25 = 0 ∧
            sorConverged ni (residSum ni dx2 eps rho
              ((sorSweep ni dx2 eps rho)^[j + 1] phi)))) ∧
          (sorLoop ni dx2 eps rho it fuel phi).2 =
            (sorSweep ni dx2 eps rho)^[k + 1] phi := by
  intro fuel
  induction fuel with
  | zero =>
    intro it phi h
    exact absurd h (by simp [sorLoop])
  | succ fuel ih =>
    intro it phi htrue
    rw [sorLoop] at htrue ⊢
    by_cases hc : it % 25 = 0 ∧
        sorConverged ni (residSum ni dx2 eps rho (sorSweep ni dx2 eps rho phi))
    · rw [if_pos hc]
      refine ⟨0, by omega, ⟨by simpa using hc.1, by simpa using hc.2⟩, by omega, ?_⟩
      simp
    · rw [if_neg hc] at htrue ⊢
      obtain ⟨k, hk, hprop, hmin, hsnd⟩ := ih (it + 1) (sorSweep ni dx2 eps rho phi) htrue
      refine ⟨k + 1, by omega, ?_, ?_, ?_⟩
      · constructor
        · have : it + (k + 1) = it + 1 + k := by omega
          rw [this]; exact hprop.1
        · rw [Function.iterate_succ_apply]
          exact hprop.2
      · intro j hj
        match j with
        | 0 =>
          intro hcontra
          apply hc
          exact ⟨by simpa using hcontra.1, by simpa using hcontra.2⟩
        | m + 1 =>
          intro hcontra
          apply hmin m (by omega)
          constructor
          · have : it + 1 + m = it + (m + 1) := by omega
            rw [this]; exact hcontra.1
          · rw [← Function.iterate_succ_apply]
            exact hcontra.2
      · rw [hsnd, ← Function.iterate_succ_apply]

/-- C4: `SolvePotential` succeeds exactly when some 25-aligned
convergence check within the 200000-sweep budget sees the (squared)
normalized residual below the tolerance; on success it stops at the
first such check, whose potential it returns, and on failure it returns
`false` together with the potential after all 200000 sweeps. -/
theorem SolvePotential_spec (ni : ℕ) (dx2 eps : ℚ) (phi rho : ℕ → ℚ) :
    ((SolvePotential ni dx2 eps phi rho).1 = true ↔
      ∃ n < 200000, n % 25 = 0 ∧
        sorConverged ni (residSum ni dx2 eps rho
          ((sorSweep ni dx2 eps rho)^[n + 1]
            (Function.update (Function.update phi (ni - 1) 0) 0 0)))) ∧
    ((SolvePotential ni dx2 eps phi rho).1 = true →
      ∃ n < 200000,
        (n % 25 = 0 ∧
          sorConverged ni (residSum ni dx2 eps rho
            ((sorSweep ni dx2 eps rho)^[n + 1]
              (Function.update (Function.update phi (ni - 1) 0) 0 0)))) ∧
        (∀ j < n, ¬(j % 25 = 0 ∧
          sorConverged ni (residSum ni dx2 eps rho
            ((sorSweep ni dx2 eps rho)^[j + 1]
              (Function.update (Function.update phi (ni - 1) 0) 0 0))))) ∧
        (SolvePotential ni dx2 eps phi rho).2 =
          (sorSweep ni dx2 eps rho)^[n + 1]
            (Function.update (Function.update phi (ni - 1) 0) 0 0)) ∧
    ((SolvePotential ni dx2 eps phi rho).1 = false →
      (SolvePotential ni dx2 eps phi rho).2 =
        (sorSweep ni dx2 eps rho)^[200000]
          (Function.update (Function.update phi (ni - 1) 0) 0 0)) := by
  refine ⟨?_, ?_, ?_⟩
  · rw [show SolvePotential ni dx2 eps phi rho =
      sorLoop ni dx2 eps rho 0 200000
        (Function.update (Function.update phi (ni - 1) 0) 0 0) from rfl]
    rw [sorLoop_true_iff]
    constructor
    · rintro ⟨k, hk, hmod, hconv⟩
      exact ⟨k, hk, by simpa using hmod, hconv⟩
    · rintro ⟨k, hk, hmod, hconv⟩
      exact ⟨k, hk, by simpa using hmod, hconv⟩
  · intro htrue
    obtain ⟨k, hk, hprop, hmin, hsnd⟩ := sorLoop_true_first ni dx2 eps rho 200000 0
      (Function.update (Function.update phi (ni - 1) 0) 0 0) htrue
    refine ⟨k, hk, ⟨by simpa using hprop.1, hprop.2⟩, ?_, hsnd⟩
    intro j hj hcontra
    exact hmin j hj ⟨by simpa using hcontra.1, hcontra.2⟩
  · intro hfalse
    exact sorLoop_false_snd ni dx2 eps rho 200000 0 _ hfalse

/-! ### C10: determinism -/

/-- C10: every embedded operation of the program is a pure function of
its inputs; with the single random stream fixed (the `mt19937` is seeded
with the constant 0, so both runs read the same stream), equal states
produce equal particle lists, fields and solver results. -/
theorem simulation_deterministic (sqrtQ : ℚ → ℚ) (rs1 rs2 : ℕ → ℚ) (dom : Domain)
    (sp1 sp2 ions1 ions2 : Species) (ef1 ef2 nd1 nd2 : ℤ → ℚ)
    (dt dx2 eps : ℚ) (ni : ℕ) (phi1 phi2 rho1 rho2 : ℕ → ℚ)
    (hr : rs1 = rs2) (hs : sp1 = sp2) (hi : ions1 = ions2) (he : ef1 = ef2)
    (hn : nd1 = nd2) (hphi : phi1 = phi2) (hrho : rho1 = rho2) :
    Init sqrtQ rs1 dom sp1 = Init sqrtQ rs2 dom sp2 ∧
    ScatterSpecies dom sp1 ef1 = ScatterSpecies dom sp2 ef2 ∧
    ScatterSpeciesVel dom sp1 ef1 = ScatterSpeciesVel dom sp2 ef2 ∧
    ComputeRho dom ions1 sp1 ef1 nd1 = ComputeRho dom ions2 sp2 ef2 nd2 ∧
    SolvePotential ni dx2 eps phi1 rho1 = SolvePotential ni dx2 eps phi2 rho2 ∧
    (∀ i, SolvePotentialDirect ni dx2 eps rho1 i = SolvePotentialDirect ni dx2 eps rho2 i) ∧
    ComputeEF dom nd1 ef1 = ComputeEF dom nd2 ef2 ∧
    PushSpecies dom sp1 ef1 dt = PushSpecies dom sp2 ef2 dt ∧
    RewindSpecies dom sp1 ef1 dt = RewindSpecies dom sp2 ef2 dt := by
  subst hr hs hi he hn hphi hrho
  exact ⟨rfl, rfl, rfl, rfl, rfl, fun _ => rfl, rfl, rfl, rfl⟩

/-- Witness for `simulation_deterministic` at the program's own
configuration. -/
theorem simulation_deterministic_witness :
    Init (fun q => q) (fun _ => 0) mainDomain ionsSpecies =
      Init (fun q => q) (fun _ => 0) mainDomain ionsSpecies :=
  (simulation_deterministic (fun q => q) (fun _ => 0) (fun _ => 0) mainDomain
    ionsSpecies ionsSpecies electronsSpecies electronsSpecies
    (fun _ => 0) (fun _ => 0) (fun _ => 0) (fun _ => 0)
    DT (DX * DX) EPS (NC + 1) (fun _ => 0) (fun _ => 0) (fun _ => 0) (fun _ => 0)
    rfl rfl rfl rfl rfl rfl rfl).1

/-! ### Remaining witnesses -/

/-- Witness for `scatter_charge_conservation`: weight 5 at `lc = 2.25`. -/
theorem scatter_charge_conservation_witness :
    ((0 : ℚ) ≤ 1 / 4 ∧ (1 / 4 : ℚ) < 1) ∧
    scatter (((2 : ℕ) : ℚ) + 1 / 4) 5 (fun _ => 0) ((2 : ℕ) : ℤ) +
      scatter (((2 : ℕ) : ℚ) + 1 / 4) 5 (fun _ => 0) (((2 : ℕ) : ℤ) + 1) = 5 := by
  have h0 : (0 : ℚ) ≤ 1 / 4 := by norm_num
  have h1 : (1 / 4 : ℚ) < 1 := by norm_num
  exact ⟨⟨h0, h1⟩, (scatter_charge_conservation 5 2 (1 / 4) h0 h1).2.2.2⟩

/-- Witness for `ComputeEF_spec`: the program's domain with the zero
potential. -/
theorem ComputeEF_spec_witness :
    2 ≤ mainDomain.ni ∧
    ComputeEF mainDomain (fun _ => 0) (fun _ => 0) 0 =
      -((0 : ℚ) - 0) / mainDomain.dx := by
  have h : 2 ≤ mainDomain.ni := by norm_num [mainDomain, NC]
  exact ⟨h, (ComputeEF_spec mainDomain (fun _ => 0) (fun _ => 0) h).2.1⟩

end SheathPIC
